import Mathlib

/-!
Shallow embedding of the `requester` repository's core logic
(`src/storage.rs` and `src/client.rs`) and proofs about it.

Strings are modelled as `List Char`.  Rust's `str::lines`,
`split_whitespace`, `trim`, `trim_end`, `split_once(':')` and
`to_uppercase` are embedded below (Unicode-specific behaviour such as
multi-character uppercasing and non-ASCII whitespace classes is modelled
on the ASCII range, which is all the claims exercise).
-/

namespace Requester

/-- Characters in a Lean string literal, used to write `List Char` values. -/
def strL (s : String) : List Char := s.data

/-- Model of Rust `char::is_whitespace` (ASCII range): space, tab,
newline, vertical tab, form feed, carriage return. -/
def isWs (c : Char) : Bool :=
  c = ' ' || c = '\t' || c = '\n' || c = '\x0b' || c = '\x0c' || c = '\r'

/-- Model of `str::trim_start`: drop leading whitespace. -/
def trimStart (l : List Char) : List Char := l.dropWhile isWs

/-- Model of `str::trim_end`: drop trailing whitespace. -/
def trimEnd (l : List Char) : List Char := ((l.reverse).dropWhile isWs).reverse

/-- Model of `str::trim`: drop whitespace at both ends. -/
def trim (l : List Char) : List Char := trimEnd (trimStart l)

/-- Split a character list at every newline character; a list with `n`
newlines yields `n + 1` segments (the segments do not contain `'\n'`). -/
def splitNL : List Char → List (List Char)
  | [] => [[]]
  | c :: rest =>
    if c = '\n' then [] :: splitNL rest
    else
      match splitNL rest with
      | [] => [[c]]
      | l :: ls => (c :: l) :: ls

/-- Strip one trailing carriage return, as Rust `lines()` does to each
produced line (CRLF support). -/
def stripCR (l : List Char) : List Char :=
  match l.reverse with
  | '\r' :: r => r.reverse
  | _ => l

/-- Model of Rust `str::lines`: split on `'\n'`, drop the final segment
when it is empty (a terminating newline produces no extra line), and
strip one trailing `'\r'` from every line. -/
def rustLines (s : List Char) : List (List Char) :=
  let segs := splitNL s
  let segs := if segs.getLast? = some [] then segs.dropLast else segs
  segs.map stripCR

/-- Accumulator-based splitting on whitespace (helper for `splitWs`). -/
def splitWsAux : List Char → List Char → List (List Char)
  | [], acc => if acc = [] then [] else [acc.reverse]
  | c :: rest, acc =>
    if isWs c then
      if acc = [] then splitWsAux rest [] else acc.reverse :: splitWsAux rest []
    else splitWsAux rest (c :: acc)

/-- Model of Rust `str::split_whitespace`: maximal runs of
non-whitespace characters, in order. -/
def splitWs (l : List Char) : List (List Char) := splitWsAux l []

/-- Model of `[&str]::join(" ")`: words rejoined with single spaces. -/
def joinSpace : List (List Char) → List Char
  | [] => []
  | w :: ws => w ++ (if ws.isEmpty then [] else ' ' :: joinSpace ws)

/-- Join line segments back with single newlines (used to reason about
`splitNL`). -/
def joinNL : List (List Char) → List Char
  | [] => []
  | l :: ls => l ++ (if ls.isEmpty then [] else '\n' :: joinNL ls)

/-- Model of Rust `str::split_once(':')`: split at the first colon. -/
def splitOnceColon : List Char → Option (List Char × List Char)
  | [] => none
  | c :: rest =>
    if c = ':' then some ([], rest)
    else (splitOnceColon rest).map (fun p => (c :: p.1, p.2))

/-- Model of Rust `str::to_uppercase` (ASCII range). -/
def toUppercase (l : List Char) : List Char := l.map Char.toUpper

/-- The in-memory request record (`HttpRequest` in `src/storage.rs`). -/
structure HttpRequest where
  method : List Char
  url : List Char
  headers : List (List Char × List Char)
  body : List Char
  deriving DecidableEq, Repr

/-- Embedding of `HttpRequest::new` from `src/storage.rs`. -/
def HttpRequest.new : HttpRequest :=
  { method := strL "GET"
    url := strL "https://httpbin.org/get"
    headers := []
    body := [] }

/-- Embedding of `HttpRequest::to_http_string` from `src/storage.rs`: the first line
is built with `format!("{} {}\n", method, url)`, then a fold models the
`for` loop pushing one `"{}: {}\n"` line per header, then a blank line,
then the body. -/
def HttpRequest.to_http_string (r : HttpRequest) : List Char :=
  let s := r.method ++ ' ' :: r.url ++ ['\n']
  let s := r.headers.foldl (fun acc kv => acc ++ kv.1 ++ ':' :: ' ' :: kv.2 ++ ['\n']) s
  s ++ '\n' :: r.body

/-- One step of the `for line in lines` loop of
`HttpRequest::from_http_string`.  State: accumulated headers, the body
buffer, the `reading_body` flag — checked in the source's order. -/
def decodeStep (st : List (List Char × List Char) × List Char × Bool) (line : List Char) :
    List (List Char × List Char) × List Char × Bool :=
  let (headers, body, readingBody) := st
  if readingBody then (headers, body ++ line ++ ['\n'], readingBody)
  else if (trim line).isEmpty then (headers, body, true)
  else
    match splitOnceColon line with
    | some (k, v) => (headers ++ [(trim k, trim v)], body, readingBody)
    | none => (headers, body, readingBody)

/-- Embedding of `HttpRequest::from_http_string` after the call to `s.lines()`:
consumes the line list.  `lines.next()` failing gives "Empty file"; a
first line with fewer than two whitespace tokens gives the invalid
first-line error; otherwise the remaining lines run through the loop. -/
def fromLines : List (List Char) → Except String HttpRequest
  | [] => .error "Empty file"
  | first :: rest =>
    match splitWs first with
    | m :: u :: us =>
      let st := rest.foldl decodeStep ([], [], false)
      .ok { method := toUppercase m
            url := joinSpace (u :: us)
            headers := st.1
            body := trimEnd st.2.1 }
    | _ => .error "Invalid first line: search for 'METHOD URL'"

/-- Embedding of `HttpRequest::from_http_string` from `src/storage.rs`. -/
def from_http_string (s : List Char) : Except String HttpRequest :=
  fromLines (rustLines s)

/-- A line that is not empty and not all whitespace (such lines are
still header candidates; the first blank line starts the body). -/
def nonBlank (l : List Char) : Bool := !(trim l).isEmpty

/-- The header pairs produced from a run of header lines: split each
line at its first colon, trim name and value, drop colon-free lines. -/
def specHeaders (ls : List (List Char)) : List (List Char × List Char) :=
  ls.filterMap (fun l => (splitOnceColon l).map (fun p => (trim p.1, trim p.2)))

/-- The lines after the first blank separator line. -/
def bodyLines (rest : List (List Char)) : List (List Char) :=
  (rest.dropWhile nonBlank).tail

/-- Each line followed by a newline, concatenated (the decoder's body
buffer before its final trimming). -/
def bodyJoin (ls : List (List Char)) : List Char :=
  (ls.map (fun l => l ++ ['\n'])).flatten

/-- Modelled from the spec's words for the body rule ("a single
trailing newline is then stripped"): remove exactly one trailing
newline and nothing else.  Compared against the source's `trim_end`. -/
def stripOneNewline (l : List Char) : List Char :=
  if l.getLast? = some '\n' then l.dropLast else l

/-- The same text with every LF line separator replaced by CRLF. -/
def crlfOf : List Char → List Char
  | [] => []
  | c :: rest => if c = '\n' then '\r' :: '\n' :: crlfOf rest else c :: crlfOf rest

/-- Apply `f` to every element except the last one. -/
def mapButLast (f : List Char → List Char) : List (List Char) → List (List Char)
  | [] => []
  | [a] => [a]
  | a :: rest => f a :: mapButLast f rest

/-- An encoded header line (without its newline): `"<name>: <value>"`. -/
def headerLine (kv : List Char × List Char) : List Char :=
  kv.1 ++ ':' :: ' ' :: kv.2

/-- The header block of the encoded form: one `"<name>: <value>\n"`
line per header pair, concatenated. -/
def hdrBlock (hs : List (List Char × List Char)) : List Char :=
  (hs.map (fun kv => headerLine kv ++ ['\n'])).flatten

instance {α β : Type} [DecidableEq α] [DecidableEq β] : DecidableEq (Except α β)
  | .ok a, .ok b => decidable_of_iff (a = b) (by simp)
  | .error a, .error b => decidable_of_iff (a = b) (by simp)
  | .ok _, .error _ => .isFalse (by simp)
  | .error _, .ok _ => .isFalse (by simp)

/-! ### Directory tree scanner (`src/storage.rs`) -/

/-- A snapshot of a filesystem subtree, as observed by `build_tree`
through `fs::read_dir`: an entry is either a plain file or a directory
with a list of entries in the (arbitrary) order the OS returns them. -/
inductive FsEntry where
  | file (name : List Char)
  | dir (name : List Char) (entries : List FsEntry)
  deriving Repr

/-- Name of a filesystem entry. -/
def FsEntry.name : FsEntry → List Char
  | .file n => n
  | .dir n _ => n

/-- Model of Rust `Path::extension` applied to a file name: the portion
after the last `'.'`, or none when there is no `'.'` or the only `'.'`
is the leading character of the name. -/
def extensionOf (name : List Char) : Option (List Char) :=
  let rev := name.reverse
  if '.' ∈ rev then
    let ext := rev.takeWhile (fun c => c ≠ '.')
    if ext.length + 1 = name.length then none else some ext.reverse
  else none

/-- The filter in `build_tree`'s loop:
`p.is_dir() || p.extension().map_or(false, |ext| ext == "req")`. -/
def keepEntry : FsEntry → Bool
  | .dir _ _ => true
  | .file n => extensionOf n = some (strL "req")

/-- The node type produced by the scanner (`FileNode` in
`src/storage.rs`); paths are modelled as the joined name segments. -/
inductive FileNode where
  | file (name : List Char) (path : List Char)
  | folder (name : List Char) (path : List Char) (children : List FileNode)
  deriving Repr

/-- Embedding of `FileNode::name`. -/
def FileNode.name : FileNode → List Char
  | .file n _ => n
  | .folder n _ _ => n

/-- Lexicographic comparison of names, modelling `Ord` on Rust strings
(byte order; code-point order on the ASCII names the claims use). -/
def lexLe : List Char → List Char → Bool
  | [], _ => true
  | _ :: _, [] => false
  | a :: as, b :: bs => if a < b then true else if a = b then lexLe as bs else false

/-- The comparator passed to `children.sort_by` in `build_tree`, as a
"less or equal" relation: `Folder` sorts before `File`, and within a
kind names compare lexicographically. -/
def nodeLeB (a b : FileNode) : Bool :=
  match a, b with
  | .folder _ _ _, .file _ _ => true
  | .file _ _, .folder _ _ _ => false
  | _, _ => lexLe a.name b.name

/-- Relation form of `nodeLeB`. -/
def nodeLe (a b : FileNode) : Prop := nodeLeB a b = true

instance : DecidableRel nodeLe := fun a b => by unfold nodeLe; infer_instance

/-- Model of `Path::join`: one path segment appended after a separator. -/
def pathJoin (parent name : List Char) : List Char := parent ++ '/' :: name

/-- Rust's `sort_by` is a stable sort; insertion sort is also stable, so
for the total preorder `nodeLe` it produces the same list. -/
def sortNodes (l : List FileNode) : List FileNode := l.insertionSort nodeLe

mutual
/-- Embedding of `build_tree` from `src/storage.rs`.  Here `path` is the parent directory
path, so this node's path is `path ++ "/" ++ name`, modelling
`entry.path()`.  A directory collects the kept entries in order
(`buildChildren` models the `for` loop with `children.push`), then
sorts them; a non-directory becomes a `File` node. -/
def buildTree (path : List Char) : FsEntry → FileNode
  | .file n => .file n (pathJoin path n)
  | .dir n entries =>
    .folder n (pathJoin path n) (sortNodes (buildChildren (pathJoin path n) entries))

/-- The `for entry in entries` loop body of `build_tree`. -/
def buildChildren (path : List Char) : List FsEntry → List FileNode
  | [] => []
  | e :: es =>
    if keepEntry e then buildTree path e :: buildChildren path es
    else buildChildren path es
end

/-- Predicate: `nd` occurs as a node somewhere in the tree rooted at `root`
(the root itself, or recursively inside a folder's children). -/
inductive InTree : FileNode → FileNode → Prop where
  | refl (nd : FileNode) : InTree nd nd
  | child {nd c : FileNode} {nm p : List Char} {cs : List FileNode}
      (hc : c ∈ cs) (h : InTree nd c) : InTree nd (.folder nm p cs)

/-! ### Request executor (`src/client.rs`) -/

/-- RFC 7230 token characters, the bytes accepted by the transport
library for method names (`Method::from_str`) and, with ASCII upper
case letters folded to lower case, for header names
(`HeaderName::from_str`). -/
def isTokenChar (c : Char) : Bool :=
  c.isAlphanum || c ∈ strL "!#$%&'*+-.^_`|~"

/-- Model of `reqwest::Method::from_str`: standard verbs match
themselves and any other non-empty all-token-character string is an
extension method kept verbatim; everything else is an error. -/
def methodFromStr (m : List Char) : Except (List Char) (List Char) :=
  if m ≠ [] ∧ m.all isTokenChar then .ok m else .error (strL "invalid HTTP method")

/-- Model of `HeaderName::from_str`: token characters only, non-empty,
ASCII letters normalised to lower case. -/
def headerNameFromStr (k : List Char) : Except (List Char) (List Char) :=
  if k ≠ [] ∧ k.all isTokenChar then .ok (k.map Char.toLower)
  else .error (strL "invalid HTTP header name")

/-- Model of `HeaderValue::from_str`: visible characters, spaces, tabs
and obs-text; no control characters. -/
def headerValueFromStr (v : List Char) : Except (List Char) (List Char) :=
  if v.all (fun c => c = '\t' || (32 ≤ c.val && c.val ≠ 127)) then .ok v
  else .error (strL "invalid HTTP header value")

/-- Model of `HeaderMap::insert`: replace the value of an existing key
in place (keys are already lower-cased by `headerNameFromStr`),
otherwise append the pair. -/
def insertHeader (m : List (List Char × List Char)) (k v : List Char) :
    List (List Char × List Char) :=
  if m.any (fun p => p.1 = k) then m.map (fun p => if p.1 = k then (k, v) else p)
  else m ++ [(k, v)]

/-- The `for (k, v) in &req_data.headers` loop of `execute_request`:
pairs whose name or value fail wire encoding are skipped, the rest are
inserted into the header map. -/
def buildHeaderMap (hs : List (List Char × List Char)) : List (List Char × List Char) :=
  hs.foldl (fun m kv =>
    match headerNameFromStr kv.1, headerValueFromStr kv.2 with
    | .ok n, .ok v => insertHeader m n v
    | _, _ => m) []

/-- The request envelope handed to the transport:
`client.request(method, url).headers(headers).body(body)`. -/
structure Envelope where
  method : List Char
  url : List Char
  headers : List (List Char × List Char)
  body : List Char
  deriving DecidableEq, Repr

/-- Embedding of `execute_request` from `src/client.rs`, up to the transport `send`
(the network call itself is external IO): parse the method — an error
here aborts with the `"Invalid method: {e}"` message before any
transport call — then assemble the envelope from the record. -/
def executeRequestEnvelope (r : HttpRequest) : Except (List Char) Envelope :=
  match methodFromStr r.method with
  | .error e => .error (strL "Invalid method: " ++ e)
  | .ok m => .ok { method := m, url := r.url, headers := buildHeaderMap r.headers, body := r.body }

/-! ### Lemmas: trimming and carriage-return stripping -/

theorem mem_dropWhile_of_mem {p : Char → Bool} {l : List Char} {c : Char}
    (hc : c ∈ l) (hp : p c = false) : c ∈ l.dropWhile p := by
  induction l with
  | nil => cases hc
  | cons a l ih =>
    rw [List.dropWhile_cons]
    by_cases ha : p a = true
    · rcases List.mem_cons.mp hc with rfl | h
      · rw [hp] at ha; cases ha
      · simp only [ha, if_pos]; exact ih h
    · simp only [Bool.not_eq_true] at ha
      simp [ha, hc]

theorem head?_dropWhile_not {p : Char → Bool} {l : List Char} {a : Char}
    (h : (l.dropWhile p).head? = some a) : p a = false := by
  induction l with
  | nil => simp [List.dropWhile] at h
  | cons b l ih =>
    rw [List.dropWhile_cons] at h
    by_cases hb : p b = true
    · simp only [hb, if_pos] at h; exact ih h
    · simp only [Bool.not_eq_true] at hb
      simp only [hb, Bool.false_eq_true, if_false, List.head?_cons, Option.some.injEq] at h
      rw [← h]; exact hb

theorem mem_of_getLast?_eq {l : List Char} {a : Char} (h : l.getLast? = some a) : a ∈ l := by
  obtain ⟨hne, rfl⟩ :=
    List.mem_getLast?_eq_getLast (by simp [h, Option.mem_def] : a ∈ l.getLast?)
  exact List.getLast_mem hne

theorem getLast?_append_ne {α : Type} (l : List α) (t : List α) (h : t ≠ []) :
    (l ++ t).getLast? = t.getLast? := List.getLast?_append_of_ne_nil l h

theorem mem_trimStart {l : List Char} {c : Char} (hc : c ∈ l) (h : isWs c = false) :
    c ∈ trimStart l := mem_dropWhile_of_mem hc h

theorem mem_trimEnd {l : List Char} {c : Char} (hc : c ∈ l) (h : isWs c = false) :
    c ∈ trimEnd l := by
  unfold trimEnd
  rw [List.mem_reverse]
  exact mem_dropWhile_of_mem (List.mem_reverse.mpr hc) h

theorem mem_trim {l : List Char} {c : Char} (hc : c ∈ l) (h : isWs c = false) :
    c ∈ trim l := mem_trimEnd (mem_trimStart hc h) h

theorem trim_not_empty_of_mem {l : List Char} {c : Char} (hc : c ∈ l) (h : isWs c = false) :
    (trim l).isEmpty = false := by
  have hm := mem_trim hc h
  cases ht : trim l with
  | nil => rw [ht] at hm; cases hm
  | cons a t => rfl

theorem trimEnd_concat_ws {l : List Char} {c : Char} (h : isWs c = true) :
    trimEnd (l ++ [c]) = trimEnd l := by
  unfold trimEnd
  simp [List.dropWhile_cons, h]

theorem getLast?_trimEnd_not_ws {l : List Char} {c : Char}
    (h : (trimEnd l).getLast? = some c) : isWs c = false := by
  unfold trimEnd at h
  rw [List.getLast?_reverse] at h
  exact head?_dropWhile_not h

theorem trimStart_cons_ws {l : List Char} {c : Char} (h : isWs c = true) :
    trimStart (c :: l) = trimStart l := by
  simp [trimStart, List.dropWhile_cons, h]

theorem trim_cons_ws {l : List Char} {c : Char} (h : isWs c = true) :
    trim (c :: l) = trim l := by
  unfold trim
  rw [trimStart_cons_ws h]

theorem stripCR_concat_cr (l : List Char) : stripCR (l ++ ['\r']) = l := by
  unfold stripCR
  simp

theorem stripCR_of_getLast? {l : List Char} (h : l.getLast? ≠ some '\r') : stripCR l = l := by
  unfold stripCR
  split
  · next r heq =>
    exfalso
    apply h
    have hh : l.reverse.head? = some '\r' := by rw [heq]; rfl
    rwa [List.head?_reverse] at hh
  · rfl

theorem stripCR_of_not_mem {l : List Char} (h : '\r' ∉ l) : stripCR l = l := by
  apply stripCR_of_getLast?
  intro hl
  exact h (mem_of_getLast?_eq hl)

/-! ### Lemmas: newline splitting -/

theorem splitNL_ne_nil (s : List Char) : splitNL s ≠ [] := by
  induction s with
  | nil => simp [splitNL]
  | cons c rest ih =>
    unfold splitNL
    split
    · simp
    · split <;> simp

theorem splitNL_cons_nl (rest : List Char) : splitNL ('\n' :: rest) = [] :: splitNL rest := by
  conv_lhs => unfold splitNL
  rw [if_pos rfl]

theorem splitNL_cons_other {c : Char} {rest l : List Char} {ls : List (List Char)}
    (hc : ¬c = '\n') (h : splitNL rest = l :: ls) :
    splitNL (c :: rest) = (c :: l) :: ls := by
  conv_lhs => unfold splitNL
  rw [if_neg hc, h]

theorem splitNL_no_nl {s : List Char} (h : '\n' ∉ s) : splitNL s = [s] := by
  induction s with
  | nil => rfl
  | cons c rest ih =>
    have hc : ¬c = '\n' := fun he => h (he ▸ List.mem_cons_self c rest)
    have hr : '\n' ∉ rest := fun hm => h (List.mem_cons_of_mem c hm)
    rw [splitNL_cons_other hc (ih hr)]

theorem splitNL_append {a : List Char} (b : List Char) (h : '\n' ∉ a) :
    splitNL (a ++ '\n' :: b) = a :: splitNL b := by
  induction a with
  | nil => simp [splitNL_cons_nl]
  | cons c a ih =>
    have hc : ¬c = '\n' := fun he => h (he ▸ List.mem_cons_self c a)
    have ha : '\n' ∉ a := fun hm => h (List.mem_cons_of_mem c hm)
    rw [List.cons_append, splitNL_cons_other hc (ih ha)]

theorem joinNL_splitNL (s : List Char) : joinNL (splitNL s) = s := by
  induction s with
  | nil => rfl
  | cons c rest ih =>
    obtain ⟨h, t, he⟩ := List.exists_cons_of_ne_nil (splitNL_ne_nil rest)
    rw [he] at ih
    by_cases hc : c = '\n'
    · subst hc
      rw [splitNL_cons_nl, he]
      have hstep : joinNL ([] :: h :: t) = '\n' :: joinNL (h :: t) := by simp [joinNL]
      rw [hstep, ih]
    · rw [splitNL_cons_other hc he]
      cases t with
      | nil =>
        have ih2 : h = rest := by simpa [joinNL] using ih
        simp [joinNL, ih2]
      | cons h2 t2 =>
        simp only [joinNL, List.isEmpty_cons, List.cons_append] at ih ⊢
        rw [← ih]

theorem mem_of_mem_splitNL {s l : List Char} {c : Char}
    (hl : l ∈ splitNL s) (hc : c ∈ l) : c ∈ s := by
  induction s generalizing l with
  | nil =>
    simp only [splitNL, List.mem_singleton] at hl
    subst hl
    cases hc
  | cons a rest ih =>
    obtain ⟨h1, t1, he⟩ := List.exists_cons_of_ne_nil (splitNL_ne_nil rest)
    by_cases ha : a = '\n'
    · subst ha
      rw [splitNL_cons_nl] at hl
      rcases List.mem_cons.mp hl with rfl | h
      · cases hc
      · exact List.mem_cons_of_mem _ (ih h hc)
    · rw [splitNL_cons_other ha he] at hl
      rcases List.mem_cons.mp hl with rfl | h
      · rcases List.mem_cons.mp hc with rfl | h2
        · exact List.mem_cons_self c rest
        · exact List.mem_cons_of_mem a (ih (he ▸ List.mem_cons_self h1 t1) h2)
      · exact List.mem_cons_of_mem a (ih (he ▸ List.mem_cons_of_mem h1 h) hc)

theorem splitNL_getLast?_ne_nil {s : List Char} (h0 : s ≠ [])
    (h : s.getLast? ≠ some '\n') : (splitNL s).getLast? ≠ some [] := by
  induction s with
  | nil => exact absurd rfl h0
  | cons c rest ih =>
    cases rest with
    | nil =>
      have hc : ¬c = '\n' := by simpa using h
      rw [splitNL_cons_other hc (show splitNL [] = [[]] from rfl)]
      simp
    | cons r2 t2 =>
      have hlast : (c :: r2 :: t2).getLast? = (r2 :: t2).getLast? := List.getLast?_cons_cons
      rw [hlast] at h
      have ihr := ih (by simp) h
      obtain ⟨h1, t1, he⟩ := List.exists_cons_of_ne_nil (splitNL_ne_nil (r2 :: t2))
      rw [he] at ihr
      by_cases hc : c = '\n'
      · subst hc
        rw [splitNL_cons_nl, he, List.getLast?_cons_cons]
        exact ihr
      · rw [splitNL_cons_other hc he]
        cases t1 with
        | nil => simp
        | cons h3 t3 =>
          rw [List.getLast?_cons_cons] at ihr ⊢
          exact ihr

/-! ### Lemmas: `rustLines` and joining body lines back -/

theorem rustLines_def (s : List Char) :
    rustLines s =
      (if (splitNL s).getLast? = some [] then (splitNL s).dropLast else splitNL s).map
        stripCR := rfl

theorem rustLines_of_getLast? {s : List Char} (h0 : s ≠ []) (h : s.getLast? ≠ some '\n') :
    rustLines s = (splitNL s).map stripCR := by
  rw [rustLines_def, if_neg (splitNL_getLast?_ne_nil h0 h)]

theorem bodyJoin_cons (l : List Char) (ls : List (List Char)) :
    bodyJoin (l :: ls) = l ++ '\n' :: bodyJoin ls := by
  simp [bodyJoin]

theorem bodyJoin_eq_joinNL {ls : List (List Char)} (h : ls ≠ []) :
    bodyJoin ls = joinNL ls ++ ['\n'] := by
  induction ls with
  | nil => exact absurd rfl h
  | cons l t ih =>
    cases t with
    | nil => simp [bodyJoin, joinNL]
    | cons h2 t2 =>
      rw [bodyJoin_cons, ih (by simp)]
      simp [joinNL]

theorem map_stripCR_of_no_cr {s : List Char} (h : '\r' ∉ s) :
    (splitNL s).map stripCR = splitNL s := by
  rw [List.map_congr_left, List.map_id]
  intro l hl
  exact stripCR_of_not_mem (fun hc => h (mem_of_mem_splitNL hl hc))

/-- Decoding then re-joining the lines of a body that has no carriage
returns and no trailing whitespace reproduces the body. -/
theorem trimEnd_bodyJoin_rustLines {B : List Char} (h0 : '\r' ∉ B) (h1 : trimEnd B = B) :
    trimEnd (bodyJoin (rustLines B)) = B := by
  by_cases hB : B = []
  · subst hB; rfl
  · obtain ⟨a, hlast⟩ : ∃ a, B.getLast? = some a :=
      ⟨B.getLast hB, List.getLast?_eq_getLast B hB⟩
    have hws : isWs a = false := getLast?_trimEnd_not_ws (h1.symm ▸ hlast)
    have ha : B.getLast? ≠ some '\n' := by
      rw [hlast]
      intro he
      rw [Option.some.injEq] at he
      rw [he] at hws
      exact absurd hws (by decide)
    rw [rustLines_of_getLast? hB ha, map_stripCR_of_no_cr h0,
      bodyJoin_eq_joinNL (splitNL_ne_nil B), joinNL_splitNL,
      trimEnd_concat_ws (by decide), h1]

/-! ### Lemmas: whitespace splitting and rejoining -/

theorem splitWsAux_words {s acc : List Char} (hacc : ∀ c ∈ acc, isWs c = false) :
    ∀ w ∈ splitWsAux s acc, w ≠ [] ∧ ∀ c ∈ w, isWs c = false := by
  induction s generalizing acc with
  | nil =>
    intro w hw
    unfold splitWsAux at hw
    split at hw
    · cases hw
    · next hne =>
      rw [List.mem_singleton] at hw
      subst hw
      refine ⟨by simpa using hne, fun c hc => hacc c (List.mem_reverse.mp hc)⟩
  | cons c rest ih =>
    intro w hw
    unfold splitWsAux at hw
    by_cases hc : isWs c = true
    · rw [if_pos hc] at hw
      split at hw
      · exact ih (by intro x hx; cases hx) w hw
      · next hne =>
        rcases List.mem_cons.mp hw with rfl | h
        · refine ⟨by simpa using hne, fun x hx => hacc x (List.mem_reverse.mp hx)⟩
        · exact ih (by intro x hx; cases hx) w h
    · rw [if_neg hc] at hw
      refine ih ?_ w hw
      intro x hx
      rcases List.mem_cons.mp hx with rfl | h
      · simpa using hc
      · exact hacc x h

theorem splitWs_words {l : List Char} : ∀ w ∈ splitWs l, w ≠ [] ∧ ∀ c ∈ w, isWs c = false :=
  splitWsAux_words (by intro c hc; cases hc)

theorem splitWsAux_prepend {m u acc : List Char} (hm : ∀ c ∈ m, isWs c = false)
    (hne : ¬(acc = [] ∧ m = [])) :
    splitWsAux (m ++ ' ' :: u) acc = (acc.reverse ++ m) :: splitWs u := by
  induction m generalizing acc with
  | nil =>
    have hacc : ¬acc = [] := fun h => hne ⟨h, rfl⟩
    unfold splitWsAux
    rw [List.nil_append] at *
    simp only [show isWs ' ' = true from rfl, if_pos]
    rw [if_neg hacc]
    simp [splitWs]
  | cons c m ih =>
    have hc : isWs c = false := hm c (List.mem_cons_self c m)
    rw [List.cons_append]
    unfold splitWsAux
    rw [if_neg (by simp [hc])]
    rw [ih (fun x hx => hm x (List.mem_cons_of_mem c hx)) (by simp)]
    simp

theorem splitWs_method_url {m u : List Char} (hm0 : m ≠ [])
    (hm : ∀ c ∈ m, isWs c = false) : splitWs (m ++ ' ' :: u) = m :: splitWs u := by
  unfold splitWs
  rw [splitWsAux_prepend hm (by simp [hm0])]
  simp [splitWs]

theorem joinSpace_single (w : List Char) : joinSpace [w] = w := by
  simp [joinSpace]

theorem joinSpace_cons_cons (w h2 : List Char) (t2 : List (List Char)) :
    joinSpace (w :: h2 :: t2) = w ++ ' ' :: joinSpace (h2 :: t2) := by
  conv_lhs => unfold joinSpace
  simp

theorem mem_joinSpace {ws : List (List Char)} {c : Char} (h : c ∈ joinSpace ws) :
    c = ' ' ∨ ∃ w ∈ ws, c ∈ w := by
  induction ws with
  | nil => cases h
  | cons w t ih =>
    cases t with
    | nil =>
      rw [joinSpace_single] at h
      exact Or.inr ⟨w, List.mem_cons_self w [], h⟩
    | cons h2 t2 =>
      rw [joinSpace_cons_cons] at h
      rcases List.mem_append.mp h with hw | hrest
      · exact Or.inr ⟨w, List.mem_cons_self _ _, hw⟩
      · rcases List.mem_cons.mp hrest with rfl | h3
        · exact Or.inl rfl
        · rcases ih h3 with h4 | ⟨w2, hw2, hc2⟩
          · exact Or.inl h4
          · exact Or.inr ⟨w2, List.mem_cons_of_mem _ hw2, hc2⟩

theorem getLast?_joinSpace {ws : List (List Char)} (h0 : ws ≠ [])
    (h : ∀ w ∈ ws, w ≠ [] ∧ ∀ c ∈ w, isWs c = false) :
    ∃ c, (joinSpace ws).getLast? = some c ∧ isWs c = false := by
  induction ws with
  | nil => exact absurd rfl h0
  | cons w t ih =>
    cases t with
    | nil =>
      obtain ⟨hw, hchars⟩ := h w (List.mem_cons_self w [])
      obtain ⟨a, hlast⟩ : ∃ a, w.getLast? = some a :=
        ⟨w.getLast hw, List.getLast?_eq_getLast w hw⟩
      refine ⟨a, ?_, hchars a (mem_of_getLast?_eq hlast)⟩
      rw [joinSpace_single]
      exact hlast
    | cons h2 t2 =>
      obtain ⟨a, hlast, hws⟩ := ih (by simp) (fun x hx => h x (List.mem_cons_of_mem w hx))
      refine ⟨a, ?_, hws⟩
      have hne : joinSpace (h2 :: t2) ≠ [] := by
        intro he
        rw [he] at hlast
        cases hlast
      obtain ⟨x, xs, hxx⟩ := List.exists_cons_of_ne_nil hne
      rw [joinSpace_cons_cons,
        getLast?_append_ne w (' ' :: joinSpace (h2 :: t2)) (by simp), hxx,
        List.getLast?_cons_cons, ← hxx, hlast]

/-! ### Lemmas: colon splitting and the decode loop -/

theorem splitOnceColon_append {k : List Char} (t : List Char) (h : ':' ∉ k) :
    splitOnceColon (k ++ ':' :: t) = some (k, t) := by
  induction k with
  | nil => simp [splitOnceColon]
  | cons c k ih =>
    have hc : ¬c = ':' := fun he => h (he ▸ List.mem_cons_self c k)
    have hk : ':' ∉ k := fun hm => h (List.mem_cons_of_mem c hm)
    rw [List.cons_append]
    unfold splitOnceColon
    rw [if_neg hc, ih hk]
    rfl

theorem decodeStep_true (hs : List (List Char × List Char)) (b l : List Char) :
    decodeStep (hs, b, true) l = (hs, b ++ l ++ ['\n'], true) := by
  simp [decodeStep]

theorem decodeStep_blank {l : List Char} (hs : List (List Char × List Char)) (b : List Char)
    (h : (trim l).isEmpty = true) : decodeStep (hs, b, false) l = (hs, b, true) := by
  simp [decodeStep, h]

theorem decodeStep_header {l k v : List Char} (hs : List (List Char × List Char))
    (b : List Char) (h : (trim l).isEmpty = false) (h2 : splitOnceColon l = some (k, v)) :
    decodeStep (hs, b, false) l = (hs ++ [(trim k, trim v)], b, false) := by
  simp [decodeStep, h, h2]

theorem decodeStep_skip {l : List Char} (hs : List (List Char × List Char)) (b : List Char)
    (h : (trim l).isEmpty = false) (h2 : splitOnceColon l = none) :
    decodeStep (hs, b, false) l = (hs, b, false) := by
  simp [decodeStep, h, h2]

theorem foldl_decodeStep_true (ls : List (List Char)) (hs : List (List Char × List Char))
    (b : List Char) : ls.foldl decodeStep (hs, b, true) = (hs, b ++ bodyJoin ls, true) := by
  induction ls generalizing b with
  | nil => simp [bodyJoin]
  | cons l t ih =>
    rw [List.foldl_cons, decodeStep_true, ih, bodyJoin_cons]
    simp

theorem foldl_decodeStep (rest : List (List Char)) (hs : List (List Char × List Char))
    (b : List Char) :
    rest.foldl decodeStep (hs, b, false) =
      (hs ++ specHeaders (rest.takeWhile nonBlank),
       b ++ bodyJoin (bodyLines rest),
       !(rest.dropWhile nonBlank).isEmpty) := by
  induction rest generalizing hs with
  | nil => simp [specHeaders, bodyLines, bodyJoin]
  | cons l t ih =>
    by_cases hbl : (trim l).isEmpty = true
    · have hnb : nonBlank l = false := by simp [nonBlank, hbl]
      rw [List.foldl_cons, decodeStep_blank hs b hbl, foldl_decodeStep_true]
      simp [specHeaders, bodyLines, List.takeWhile_cons, List.dropWhile_cons, hnb]
    · have hnb : nonBlank l = true := by simp [nonBlank, hbl]
      have hbl2 : (trim l).isEmpty = false := by simpa using hbl
      cases hsp : splitOnceColon l with
      | none =>
        rw [List.foldl_cons, decodeStep_skip hs b hbl2 hsp, ih]
        simp [specHeaders, bodyLines, List.takeWhile_cons, List.dropWhile_cons, hnb, hsp]
      | some kv =>
        rw [List.foldl_cons, decodeStep_header hs b hbl2 (by rw [hsp]), ih]
        simp [specHeaders, bodyLines, List.takeWhile_cons, List.dropWhile_cons, hnb, hsp]

theorem fromLines_ok {first : List Char} {m u : List Char} {us : List (List Char)}
    (rest : List (List Char)) (h : splitWs first = m :: u :: us) :
    fromLines (first :: rest) =
      .ok { method := toUppercase m
            url := joinSpace (u :: us)
            headers := specHeaders (rest.takeWhile nonBlank)
            body := trimEnd (bodyJoin (bodyLines rest)) } := by
  simp only [fromLines]
  rw [h, foldl_decodeStep]
  simp

/-! ### Lemmas: the encoder -/

theorem foldl_hdr (hs : List (List Char × List Char)) (acc : List Char) :
    hs.foldl (fun acc kv => acc ++ kv.1 ++ ':' :: ' ' :: kv.2 ++ ['\n']) acc =
      acc ++ hdrBlock hs := by
  induction hs generalizing acc with
  | nil => simp [hdrBlock]
  | cons kv t ih =>
    rw [List.foldl_cons, ih]
    simp [hdrBlock, headerLine]

/-- Closed form of the encoder: first line, header block, blank line,
body. -/
theorem to_http_string_eq (r : HttpRequest) :
    r.to_http_string =
      (r.method ++ ' ' :: r.url) ++ '\n' :: (hdrBlock r.headers ++ '\n' :: r.body) := by
  unfold HttpRequest.to_http_string
  dsimp only
  rw [foldl_hdr]
  simp

theorem splitNL_hdrBlock {hs : List (List Char × List Char)} (B : List Char)
    (h : ∀ kv ∈ hs, '\n' ∉ kv.1 ∧ '\n' ∉ kv.2) :
    splitNL (hdrBlock hs ++ '\n' :: B) = hs.map headerLine ++ [] :: splitNL B := by
  induction hs with
  | nil => simp [hdrBlock, splitNL_cons_nl]
  | cons kv t ih =>
    obtain ⟨hk, hv⟩ := h kv (List.mem_cons_self kv t)
    have hline : '\n' ∉ headerLine kv := by
      intro hm
      rcases List.mem_append.mp hm with h1 | h2
      · exact hk h1
      · rcases List.mem_cons.mp h2 with he | h3
        · cases he
        · rcases List.mem_cons.mp h3 with he | h4
          · cases he
          · exact hv h4
    have harr : hdrBlock (kv :: t) ++ '\n' :: B =
        headerLine kv ++ '\n' :: (hdrBlock t ++ '\n' :: B) := by
      simp [hdrBlock]
    rw [harr, splitNL_append _ hline, ih (fun x hx => h x (List.mem_cons_of_mem kv hx))]
    simp

/-! ### Lemmas: decoding an encoded record -/

theorem getLast?_trim_not_ws {l : List Char} {c : Char}
    (h : (trim l).getLast? = some c) : isWs c = false :=
  getLast?_trimEnd_not_ws h

theorem stripCR_headerLine {kv : List Char × List Char} (hv : trim kv.2 = kv.2) :
    stripCR (headerLine kv) = headerLine kv := by
  apply stripCR_of_getLast?
  unfold headerLine
  cases hv2 : kv.2 with
  | nil =>
    rw [getLast?_append_ne kv.1 (':' :: ' ' :: []) (by simp)]
    simp
  | cons x xs =>
    rw [getLast?_append_ne kv.1 (':' :: ' ' :: x :: xs) (by simp), List.getLast?_cons_cons,
      List.getLast?_cons_cons]
    obtain ⟨a, ha⟩ : ∃ a, (x :: xs).getLast? = some a :=
      ⟨(x :: xs).getLast (by simp), List.getLast?_eq_getLast _ _⟩
    have hws : isWs a = false := getLast?_trim_not_ws (by rw [hv, hv2]; exact ha)
    rw [ha]
    intro he
    rw [Option.some.injEq] at he
    subst he
    exact absurd hws (by decide)

theorem map_stripCR_headerLines {hs : List (List Char × List Char)}
    (hv : ∀ kv ∈ hs, trim kv.2 = kv.2) :
    (hs.map headerLine).map stripCR = hs.map headerLine := by
  rw [List.map_map]
  apply List.map_congr_left
  intro kv hkv
  exact stripCR_headerLine (hv kv hkv)

theorem foldl_decodeStep_headers (hs : List (List Char × List Char))
    (rest : List (List Char)) (acc : List (List Char × List Char)) (b : List Char)
    (h : ∀ kv ∈ hs, ':' ∉ kv.1) :
    (hs.map headerLine ++ rest).foldl decodeStep (acc, b, false) =
      rest.foldl decodeStep (acc ++ hs.map (fun kv => (trim kv.1, trim kv.2)), b, false) := by
  induction hs generalizing acc with
  | nil => simp
  | cons kv t ih =>
    have hcol : ':' ∉ kv.1 := h kv (List.mem_cons_self kv t)
    have hmem : ':' ∈ headerLine kv := by
      unfold headerLine
      exact List.mem_append_right _ (List.mem_cons_self _ _)
    have hne : (trim (headerLine kv)).isEmpty = false :=
      trim_not_empty_of_mem hmem (by decide)
    have hsp : splitOnceColon (headerLine kv) = some (kv.1, ' ' :: kv.2) :=
      splitOnceColon_append (' ' :: kv.2) hcol
    rw [List.map_cons, List.cons_append, List.foldl_cons,
      decodeStep_header acc b hne hsp, trim_cons_ws (by decide),
      ih _ (fun x hx => h x (List.mem_cons_of_mem kv hx))]
    simp

theorem fromLines_headers_blank (F : List Char) (hs : List (List Char × List Char))
    (bls : List (List Char)) {m u : List Char} {us : List (List Char)}
    (hswF : splitWs F = m :: u :: us) (hcol : ∀ kv ∈ hs, ':' ∉ kv.1) :
    fromLines (F :: (hs.map headerLine ++ [] :: bls)) =
      .ok { method := toUppercase m
            url := joinSpace (u :: us)
            headers := hs.map (fun kv => (trim kv.1, trim kv.2))
            body := trimEnd (bodyJoin bls) } := by
  simp only [fromLines]
  rw [hswF]
  dsimp only
  rw [foldl_decodeStep_headers hs ([] :: bls) [] [] hcol, List.foldl_cons,
    decodeStep_blank _ _ (by decide), foldl_decodeStep_true]
  simp

/-! ### Round trip -/

/-- C1 (amended): decoding the encoding of a record reconstructs it
exactly, under the full precondition the code requires: the method is a
non-empty whitespace-free token fixed by upper-casing; the URL is
non-empty and fixed by splitting on whitespace and rejoining with
single spaces; header names are colon-free, header names and values are
newline-free and fixed by trimming; the body has no carriage returns
and no trailing whitespace. -/
theorem C1_round_trip (r : HttpRequest)
    (hm0 : r.method ≠ [])
    (hm1 : ∀ c ∈ r.method, isWs c = false)
    (hm2 : toUppercase r.method = r.method)
    (hu0 : r.url ≠ [])
    (hu1 : joinSpace (splitWs r.url) = r.url)
    (hh : ∀ kv ∈ r.headers,
      ':' ∉ kv.1 ∧ '\n' ∉ kv.1 ∧ '\n' ∉ kv.2 ∧ trim kv.1 = kv.1 ∧ trim kv.2 = kv.2)
    (hb0 : '\r' ∉ r.body)
    (hb1 : trimEnd r.body = r.body) :
    from_http_string r.to_http_string = Except.ok r := by
  have hsplitU : splitWs r.url ≠ [] := by
    intro he
    rw [he] at hu1
    exact hu0 hu1.symm
  obtain ⟨u, us, hsw⟩ := List.exists_cons_of_ne_nil hsplitU
  have hurlchars : ∀ c ∈ r.url, c = ' ' ∨ isWs c = false := by
    intro c hc
    rw [← hu1] at hc
    rcases mem_joinSpace hc with h | ⟨w, hw, hcw⟩
    · exact Or.inl h
    · exact Or.inr ((splitWs_words w hw).2 c hcw)
  have hurl_nl : '\n' ∉ r.url := by
    intro hc
    rcases hurlchars _ hc with h | h
    · exact absurd h (by decide)
    · exact absurd h (by decide)
  have hurl_lastcr : r.url.getLast? ≠ some '\r' := by
    obtain ⟨c, hc, hcw⟩ := getLast?_joinSpace hsplitU splitWs_words
    rw [hu1] at hc
    rw [hc]
    intro he
    rw [Option.some.injEq] at he
    subst he
    exact absurd hcw (by decide)
  have hF_nl : '\n' ∉ (r.method ++ ' ' :: r.url) := by
    intro hm
    rcases List.mem_append.mp hm with h1 | h2
    · exact absurd (hm1 _ h1) (by decide)
    · rcases List.mem_cons.mp h2 with he | h3
      · exact absurd he (by decide)
      · exact hurl_nl h3
  have hF_cr : (r.method ++ ' ' :: r.url).getLast? ≠ some '\r' := by
    rw [getLast?_append_ne r.method (' ' :: r.url) (by simp)]
    obtain ⟨x, xs, hx⟩ := List.exists_cons_of_ne_nil hu0
    rw [hx, List.getLast?_cons_cons, ← hx]
    exact hurl_lastcr
  have hstripF := stripCR_of_getLast? hF_cr
  have hhnl : ∀ kv ∈ r.headers, '\n' ∉ kv.1 ∧ '\n' ∉ kv.2 :=
    fun kv hkv => ⟨(hh kv hkv).2.1, (hh kv hkv).2.2.1⟩
  have hcol : ∀ kv ∈ r.headers, ':' ∉ kv.1 := fun kv hkv => (hh kv hkv).1
  have hmapH := map_stripCR_headerLines (fun kv hkv => (hh kv hkv).2.2.2.2)
  have hsegs : splitNL r.to_http_string =
      (r.method ++ ' ' :: r.url) :: (r.headers.map headerLine ++ [] :: splitNL r.body) := by
    rw [to_http_string_eq, splitNL_append _ hF_nl, splitNL_hdrBlock _ hhnl]
  have hswF : splitWs (r.method ++ ' ' :: r.url) = r.method :: u :: us := by
    rw [splitWs_method_url hm0 hm1, hsw]
  have hid : ∀ kv ∈ r.headers, (trim kv.1, trim kv.2) = kv := by
    intro kv hkv
    obtain ⟨_, _, _, h4, h5⟩ := hh kv hkv
    cases kv
    simp only [Prod.mk.injEq]
    exact ⟨h4, h5⟩
  have hmaps : r.headers.map (fun kv => (trim kv.1, trim kv.2)) = r.headers := by
    rw [List.map_congr_left hid]
    simp
  by_cases hB : r.body = []
  · have hsegs2 : splitNL r.to_http_string =
        ((r.method ++ ' ' :: r.url) :: (r.headers.map headerLine ++ [[]])) ++ [[]] := by
      rw [hsegs, hB]
      simp [splitNL]
    have hrl : rustLines r.to_http_string =
        (r.method ++ ' ' :: r.url) :: (r.headers.map headerLine ++ [[]]) := by
      rw [rustLines_def, hsegs2, List.getLast?_concat, if_pos rfl, List.dropLast_concat,
        List.map_cons, hstripF, List.map_append, hmapH]
      rfl
    rw [from_http_string, hrl,
      fromLines_headers_blank _ _ _ hswF hcol, hmaps, hm2, ← hsw, hu1]
    have hbody : trimEnd (bodyJoin ([] : List (List Char))) = r.body := by
      rw [hB]
      rfl
    rw [hbody]
  · obtain ⟨a, hlast⟩ : ∃ a, r.body.getLast? = some a :=
      ⟨r.body.getLast hB, List.getLast?_eq_getLast _ _⟩
    have haws : isWs a = false := getLast?_trimEnd_not_ws (hb1.symm ▸ hlast)
    have hbnl : r.body.getLast? ≠ some '\n' := by
      rw [hlast]
      intro he
      rw [Option.some.injEq] at he
      subst he
      exact absurd haws (by decide)
    have hlastseg := splitNL_getLast?_ne_nil hB hbnl
    have hgl : ((r.method ++ ' ' :: r.url) ::
          (r.headers.map headerLine ++ [] :: splitNL r.body)).getLast? ≠ some [] := by
      obtain ⟨bl, bls, hbs⟩ := List.exists_cons_of_ne_nil (splitNL_ne_nil r.body)
      rw [hbs] at hlastseg
      rw [← List.singleton_append,
        getLast?_append_ne [r.method ++ ' ' :: r.url]
          (r.headers.map headerLine ++ [] :: splitNL r.body) (by simp),
        getLast?_append_ne (r.headers.map headerLine)
          ([] :: splitNL r.body) (by simp),
        hbs, List.getLast?_cons_cons]
      exact hlastseg
    have hrl : rustLines r.to_http_string =
        (r.method ++ ' ' :: r.url) :: (r.headers.map headerLine ++ [] :: splitNL r.body) := by
      rw [rustLines_def, hsegs, if_neg hgl]
      rw [List.map_cons, hstripF, List.map_append, hmapH, List.map_cons,
        map_stripCR_of_no_cr hb0]
      rfl
    rw [from_http_string, hrl,
      fromLines_headers_blank _ _ _ hswF hcol, hmaps, hm2, ← hsw, hu1]
    have hbody : trimEnd (bodyJoin (splitNL r.body)) = r.body := by
      rw [bodyJoin_eq_joinNL (splitNL_ne_nil r.body), joinNL_splitNL,
        trimEnd_concat_ws (by decide), hb1]
    rw [hbody]

/-- C1 (counterexample): the claim as stated fails — the record with
lower-case method `"get"`, URL `"u"`, no headers and empty body has
colon-free header names and a newline-free method and URL, yet decoding
its encoding yields method `"GET"`, not the original record. -/
theorem C1_round_trip_counterexample :
    (∀ kv ∈ ({ method := strL "get", url := strL "u", headers := [], body := [] } :
        HttpRequest).headers, ':' ∉ kv.1) ∧
    '\n' ∉ strL "get" ∧ '\n' ∉ strL "u" ∧
    from_http_string
        (HttpRequest.to_http_string
          { method := strL "get", url := strL "u", headers := [], body := [] }) ≠
      Except.ok { method := strL "get", url := strL "u", headers := [], body := [] } := by
  refine ⟨by simp, by decide, by decide, by decide⟩

/-- C1 (witness): the amended round trip at a concrete record. -/
theorem C1_round_trip_witness :
    from_http_string
        (HttpRequest.to_http_string
          { method := strL "GET", url := strL "https://x.com/a"
            headers := [(strL "X", strL "1")], body := strL "Hello" }) =
      Except.ok { method := strL "GET", url := strL "https://x.com/a"
                  headers := [(strL "X", strL "1")], body := strL "Hello" } :=
  C1_round_trip _ (by decide) (by decide) (by decide) (by decide) (by decide)
    (by decide) (by decide) (by decide)

/-- C5: the encoder output is exactly the first line
`"<METHOD> <URL>\n"`, one `"<name>: <value>\n"` line per header pair in
order with name and value verbatim, one blank line, then the body
verbatim with nothing appended. -/
theorem C5_encode_format (r : HttpRequest) :
    r.to_http_string =
      (r.method ++ ' ' :: r.url) ++ '\n' :: (hdrBlock r.headers ++ '\n' :: r.body) :=
  to_http_string_eq r

/-- C9 (counterexample): a fresh record does not have an empty URL —
`HttpRequest::new` sets the URL to `"https://httpbin.org/get"`. -/
theorem C9_new_counterexample :
    HttpRequest.new ≠
      { method := strL "GET", url := [], headers := [], body := [] } := by
  decide

/-- C9 (amended): a fresh record has method `"GET"`, URL
`"https://httpbin.org/get"`, an empty header list and an empty body. -/
theorem C9_new_default :
    HttpRequest.new =
      { method := strL "GET", url := strL "https://httpbin.org/get"
        headers := [], body := [] } := rfl

/-- C2: decoding fails exactly when the input has no lines at all or
its first line has fewer than two whitespace-separated tokens; any
input passing that check decodes successfully (malformed header lines
are dropped, never an error). -/
theorem C2_error_iff (s : List Char) :
    (∃ e, from_http_string s = .error e) ↔
      (rustLines s = [] ∨
        ∃ first rest, rustLines s = first :: rest ∧ (splitWs first).length < 2) := by
  rw [from_http_string]
  cases hrl : rustLines s with
  | nil => simp [fromLines]
  | cons first rest =>
    constructor
    · rintro ⟨e, he⟩
      right
      refine ⟨first, rest, rfl, ?_⟩
      by_contra hlen
      cases hsp : splitWs first with
      | nil => rw [hsp] at hlen; exact hlen (by simp)
      | cons m t =>
        cases t with
        | nil => rw [hsp] at hlen; exact hlen (by simp)
        | cons u us =>
          rw [fromLines_ok rest hsp] at he
          cases he
    · rintro (h | ⟨first', rest', heq, hlen⟩)
      · cases h
      · injection heq with h1 h2
        subst h1
        subst h2
        cases hsp : splitWs first with
        | nil =>
          exact ⟨"Invalid first line: search for 'METHOD URL'", by simp [fromLines, hsp]⟩
        | cons m t =>
          cases t with
          | nil =>
            exact ⟨"Invalid first line: search for 'METHOD URL'", by simp [fromLines, hsp]⟩
          | cons u us =>
            rw [hsp] at hlen
            simp at hlen
            omega

/-- C3 (amended): for every successfully decoded input, the body is
the lines after the first blank separator line, each joined with a
newline, with ALL trailing whitespace then stripped (`trim_end`), not
just a single trailing newline. -/
theorem C3_decoded_body (s : List Char) (r : HttpRequest)
    (h : from_http_string s = Except.ok r) :
    r.body = trimEnd (bodyJoin (bodyLines (rustLines s).tail)) := by
  rw [from_http_string] at h
  cases hrl : rustLines s with
  | nil => rw [hrl] at h; simp [fromLines] at h
  | cons first rest =>
    rw [hrl] at h
    cases hsp : splitWs first with
    | nil => rw [fromLines] at h; rw [hsp] at h; simp at h
    | cons m t =>
      cases t with
      | nil => rw [fromLines] at h; rw [hsp] at h; simp at h
      | cons u us =>
        rw [fromLines_ok rest hsp] at h
        rw [Except.ok.injEq] at h
        rw [← h]
        rfl

/-- C3 (counterexample): on `"M U\n\nhi \n"` the decoder's body is
`"hi"` (all trailing whitespace stripped), while the claim's rule —
join the lines after the separator and strip exactly one trailing
newline — yields `"hi "`. -/
theorem C3_decoded_body_counterexample :
    from_http_string (strL "M U\n\nhi \n") =
      Except.ok { method := strL "M", url := strL "U", headers := [], body := strL "hi" } ∧
    stripOneNewline (bodyJoin (bodyLines (rustLines (strL "M U\n\nhi \n")).tail)) =
      strL "hi " ∧
    strL "hi" ≠ strL "hi " := by
  refine ⟨by decide, by decide, by decide⟩

/-- C3 (witness): the amended body rule at a concrete input. -/
theorem C3_decoded_body_witness :
    (HttpRequest.mk (strL "GET") (strL "u") [] (strL "hi")).body =
      trimEnd (bodyJoin (bodyLines (rustLines (strL "GET u\n\nhi \n")).tail)) :=
  C3_decoded_body (strL "GET u\n\nhi \n")
    { method := strL "GET", url := strL "u", headers := [], body := strL "hi" }
    (by decide)

/-- C4: a well-formed input decodes with the method upper-cased from
the first token, the URL the remaining first-line tokens rejoined with
single spaces, and the headers the lines before the first blank line
split at their first colon with name and value trimmed (colon-free
lines dropped). -/
theorem C4_first_line_and_headers (s first : List Char) (rest : List (List Char))
    (m u : List Char) (us : List (List Char))
    (h1 : rustLines s = first :: rest) (h2 : splitWs first = m :: u :: us) :
    from_http_string s =
      Except.ok { method := toUppercase m
                  url := joinSpace (u :: us)
                  headers := specHeaders (rest.takeWhile nonBlank)
                  body := trimEnd (bodyJoin (bodyLines rest)) } := by
  rw [from_http_string, h1, fromLines_ok rest h2]

/-- C4 (witness): the spec's concrete example
`"GET https://x.com/a\nX: 1\nY: 2\n\nHello"`. -/
theorem C4_first_line_and_headers_witness :
    from_http_string (strL "GET https://x.com/a\nX: 1\nY: 2\n\nHello") =
      Except.ok { method := strL "GET", url := strL "https://x.com/a"
                  headers := [(strL "X", strL "1"), (strL "Y", strL "2")]
                  body := strL "Hello" } :=
  (C4_first_line_and_headers (strL "GET https://x.com/a\nX: 1\nY: 2\n\nHello")
      (strL "GET https://x.com/a") [strL "X: 1", strL "Y: 2", [], strL "Hello"]
      (strL "GET") (strL "https://x.com/a") [] (by decide) (by decide)).trans
    (by decide)

/-! ### CRLF insensitivity -/

theorem mapButLast_cons_cons (f : List Char → List Char) (a b : List Char)
    (t : List (List Char)) : mapButLast f (a :: b :: t) = f a :: mapButLast f (b :: t) := rfl

theorem mapButLast_cons_shape (f : List Char → List Char) (b : List Char)
    (t : List (List Char)) : ∃ y ys, mapButLast f (b :: t) = y :: ys := by
  cases t with
  | nil => exact ⟨b, [], rfl⟩
  | cons c t2 => exact ⟨f b, mapButLast f (c :: t2), rfl⟩

theorem getLast?_mapButLast (f : List Char → List Char) (l : List (List Char)) :
    (mapButLast f l).getLast? = l.getLast? := by
  induction l with
  | nil => rfl
  | cons a t ih =>
    cases t with
    | nil => rfl
    | cons b t2 =>
      rw [mapButLast_cons_cons]
      obtain ⟨y, ys, hsh⟩ := mapButLast_cons_shape f b t2
      rw [hsh] at ih ⊢
      rw [List.getLast?_cons_cons, List.getLast?_cons_cons]
      exact ih

theorem dropLast_mapButLast (f : List Char → List Char) (l : List (List Char)) :
    (mapButLast f l).dropLast = l.dropLast.map f := by
  induction l with
  | nil => rfl
  | cons a t ih =>
    cases t with
    | nil => rfl
    | cons b t2 =>
      rw [mapButLast_cons_cons]
      obtain ⟨y, ys, hsh⟩ := mapButLast_cons_shape f b t2
      rw [hsh] at ih
      rw [hsh, List.dropLast_cons₂, List.dropLast_cons₂, ih, List.map_cons]

theorem splitNL_crlfOf (s : List Char) :
    splitNL (crlfOf s) = mapButLast (fun x => x ++ ['\r']) (splitNL s) := by
  induction s with
  | nil => rfl
  | cons c rest ih =>
    obtain ⟨h, t, he⟩ := List.exists_cons_of_ne_nil (splitNL_ne_nil rest)
    by_cases hc : c = '\n'
    · subst hc
      have hcrl : crlfOf ('\n' :: rest) = '\r' :: '\n' :: crlfOf rest := by
        simp [crlfOf]
      rw [hcrl, splitNL_cons_other (by decide) (splitNL_cons_nl (crlfOf rest)), ih,
        splitNL_cons_nl, he, mapButLast_cons_cons]
      rfl
    · have hcrl : crlfOf (c :: rest) = c :: crlfOf rest := by
        simp [crlfOf, hc]
      obtain ⟨y, ys, hsh⟩ := mapButLast_cons_shape (fun x => x ++ ['\r']) h t
      rw [hcrl, splitNL_cons_other hc (ih.trans (he ▸ hsh)), splitNL_cons_other hc he]
      cases t with
      | nil =>
        obtain ⟨rfl, rfl⟩ : y = h ∧ ys = [] := by
          have : mapButLast (fun x => x ++ ['\r']) [h] = [h] := rfl
          rw [this] at hsh
          exact ⟨(List.cons.injEq _ _ _ _ ▸ hsh).1.symm, (List.cons.injEq _ _ _ _ ▸ hsh).2.symm⟩
        rfl
      | cons h2 t2 =>
        rw [mapButLast_cons_cons] at hsh ⊢
        obtain ⟨rfl, rfl⟩ : y = h ++ ['\r'] ∧ ys = mapButLast (fun x => x ++ ['\r']) (h2 :: t2) := by
          exact ⟨(List.cons.injEq _ _ _ _ ▸ hsh).1.symm, (List.cons.injEq _ _ _ _ ▸ hsh).2.symm⟩
        rfl

theorem map_stripCR_mapButLast {L : List (List Char)} (h : ∀ x ∈ L, '\r' ∉ x) :
    (mapButLast (fun x => x ++ ['\r']) L).map stripCR = L.map stripCR := by
  induction L with
  | nil => rfl
  | cons a t ih =>
    cases t with
    | nil => rfl
    | cons b t2 =>
      rw [mapButLast_cons_cons, List.map_cons, List.map_cons, stripCR_concat_cr,
        stripCR_of_not_mem (h a (List.mem_cons_self a _)),
        ih (fun x hx => h x (List.mem_cons_of_mem a hx))]

theorem rustLines_crlfOf {s : List Char} (h : '\r' ∉ s) :
    rustLines (crlfOf s) = rustLines s := by
  have hseg : ∀ x ∈ splitNL s, '\r' ∉ x := fun x hx hc => h (mem_of_mem_splitNL hx hc)
  rw [rustLines_def, rustLines_def, splitNL_crlfOf, getLast?_mapButLast]
  by_cases hlast : (splitNL s).getLast? = some []
  · rw [if_pos hlast, if_pos hlast, dropLast_mapButLast, List.map_map]
    apply List.map_congr_left
    intro x hx
    have hxL : x ∈ splitNL s := (List.dropLast_sublist (splitNL s)).subset hx
    show stripCR (x ++ ['\r']) = stripCR x
    rw [stripCR_concat_cr, stripCR_of_not_mem (hseg x hxL)]
  · rw [if_neg hlast, if_neg hlast, map_stripCR_mapButLast hseg]

/-- C10: the decoder is line-ending insensitive — replacing every LF
separator by CRLF does not change the decode result, because each
line's trailing carriage return is stripped before the first-line
split, header splitting and body joining.  (The input is assumed free
of stray carriage returns, so that LF and CRLF versions are two
renderings of the same lines.) -/
theorem C10_crlf_insensitive (s : List Char) (h : '\r' ∉ s) :
    from_http_string (crlfOf s) = from_http_string s := by
  rw [from_http_string, from_http_string, rustLines_crlfOf h]

/-- C10 (witness): CRLF insensitivity at a concrete request text. -/
theorem C10_crlf_insensitive_witness :
    from_http_string (crlfOf (strL "GET u\nA: 1\n\nbody")) =
      from_http_string (strL "GET u\nA: 1\n\nbody") :=
  C10_crlf_insensitive _ (by decide)

/-! ### Lemmas: the directory tree scanner -/

theorem lexLe_cons {x y : Char} {xs ys : List Char} :
    lexLe (x :: xs) (y :: ys) = true ↔ (x < y ∨ (x = y ∧ lexLe xs ys = true)) := by
  show (if x < y then true else if x = y then lexLe xs ys else false) = true ↔ _
  split_ifs with h1 h2
  · simp [h1]
  · simp [h1, h2]
  · simp [h1, h2]

theorem lexLe_total (a b : List Char) : lexLe a b = true ∨ lexLe b a = true := by
  induction a generalizing b with
  | nil => exact Or.inl rfl
  | cons x xs ih =>
    cases b with
    | nil => exact Or.inr rfl
    | cons y ys =>
      rcases lt_trichotomy x y with hlt | heq | hgt
      · exact Or.inl (lexLe_cons.mpr (Or.inl hlt))
      · subst heq
        rcases ih ys with h | h
        · exact Or.inl (lexLe_cons.mpr (Or.inr ⟨rfl, h⟩))
        · exact Or.inr (lexLe_cons.mpr (Or.inr ⟨rfl, h⟩))
      · exact Or.inr (lexLe_cons.mpr (Or.inl hgt))

theorem lexLe_trans {a b c : List Char} (h1 : lexLe a b = true) (h2 : lexLe b c = true) :
    lexLe a c = true := by
  induction a generalizing b c with
  | nil => rfl
  | cons x xs ih =>
    cases b with
    | nil => simp [lexLe] at h1
    | cons y ys =>
      cases c with
      | nil => simp [lexLe] at h2
      | cons z zs =>
        rcases lexLe_cons.mp h1 with hxy | ⟨rfl, hxs⟩ <;>
          rcases lexLe_cons.mp h2 with hyz | ⟨rfl, hys⟩
        · exact lexLe_cons.mpr (Or.inl (lt_trans hxy hyz))
        · exact lexLe_cons.mpr (Or.inl hxy)
        · exact lexLe_cons.mpr (Or.inl hyz)
        · exact lexLe_cons.mpr (Or.inr ⟨rfl, ih hxs hys⟩)

theorem nodeLe_total (a b : FileNode) : nodeLe a b ∨ nodeLe b a := by
  unfold nodeLe nodeLeB
  cases a <;> cases b <;> simp [FileNode.name] <;> apply lexLe_total

theorem nodeLe_trans {a b c : FileNode} (h1 : nodeLe a b) (h2 : nodeLe b c) : nodeLe a c := by
  unfold nodeLe nodeLeB at *
  cases a <;> cases b <;> cases c <;>
    simp [FileNode.name] at * <;>
    exact lexLe_trans h1 h2

theorem sortNodes_sorted (l : List FileNode) : (sortNodes l).Pairwise nodeLe := by
  haveI : IsTotal FileNode nodeLe := ⟨nodeLe_total⟩
  haveI : IsTrans FileNode nodeLe := ⟨fun _ _ _ => nodeLe_trans⟩
  exact List.sorted_insertionSort nodeLe l

theorem mem_sortNodes {x : FileNode} {l : List FileNode} : x ∈ sortNodes l ↔ x ∈ l :=
  (List.perm_insertionSort nodeLe l).mem_iff

theorem mem_buildChildren {p : List Char} {es : List FsEntry} {c : FileNode} :
    c ∈ buildChildren p es ↔ ∃ e ∈ es, keepEntry e = true ∧ c = buildTree p e := by
  induction es with
  | nil => simp [buildChildren]
  | cons e t ih =>
    by_cases hke : keepEntry e = true
    · rw [show buildChildren p (e :: t) = buildTree p e :: buildChildren p t from by
        simp [buildChildren, hke]]
      constructor
      · intro hc
        rcases List.mem_cons.mp hc with rfl | hc2
        · exact ⟨e, List.mem_cons_self e t, hke, rfl⟩
        · obtain ⟨e2, he2, hk2, rfl⟩ := ih.mp hc2
          exact ⟨e2, List.mem_cons_of_mem e he2, hk2, rfl⟩
      · rintro ⟨e2, he2, hk2, rfl⟩
        rcases List.mem_cons.mp he2 with rfl | he3
        · exact List.mem_cons_self _ _
        · exact List.mem_cons_of_mem _ (ih.mpr ⟨e2, he3, hk2, rfl⟩)
    · rw [show buildChildren p (e :: t) = buildChildren p t from by
        simp [buildChildren, hke]]
      constructor
      · intro hc
        obtain ⟨e2, he2, hk2, rfl⟩ := ih.mp hc
        exact ⟨e2, List.mem_cons_of_mem e he2, hk2, rfl⟩
      · rintro ⟨e2, he2, hk2, rfl⟩
        rcases List.mem_cons.mp he2 with rfl | he3
        · exact absurd hk2 hke
        · exact ih.mpr ⟨e2, he3, hk2, rfl⟩

theorem sorted_aux : ∀ (n : Nat) (fs : FsEntry), sizeOf fs ≤ n →
    ∀ (path : List Char) (nd : FileNode), InTree nd (buildTree path fs) →
    ∀ (nm p : List Char) (cs : List FileNode), nd = FileNode.folder nm p cs →
    cs.Pairwise nodeLe := by
  intro n
  induction n with
  | zero =>
    intro fs hsz
    exfalso
    cases fs <;> simp at hsz
  | succ n ih =>
    intro fs hsz path nd hin nm p cs hnd
    cases fs with
    | file name =>
      cases hin with
      | refl => exact absurd hnd (by simp [buildTree])
    | dir name entries =>
      rw [show buildTree path (FsEntry.dir name entries) =
        FileNode.folder name (pathJoin path name)
          (sortNodes (buildChildren (pathJoin path name) entries)) from rfl] at hin
      cases hin with
      | refl =>
        injection hnd with h1 h2 h3
        rw [← h3]
        exact sortNodes_sorted _
      | child hc h =>
        obtain ⟨e, he, hke, rfl⟩ := mem_buildChildren.mp (mem_sortNodes.mp hc)
        refine ih e ?_ _ nd h nm p cs hnd
        have h1 := List.sizeOf_lt_of_mem he
        simp only [FsEntry.dir.sizeOf_spec] at hsz
        omega

/-- C6: in every folder node anywhere in a tree produced by the
scanner, the children list is sorted by the comparator: every folder
child precedes every file child, and within each kind names are in
lexicographic order. -/
theorem C6_children_sorted (fs : FsEntry) (path : List Char) (nd : FileNode)
    (hin : InTree nd (buildTree path fs)) (nm p : List Char) (cs : List FileNode)
    (hnd : nd = FileNode.folder nm p cs) : cs.Pairwise nodeLe :=
  sorted_aux (sizeOf fs) fs le_rfl path nd hin nm p cs hnd

/-- C6 (witness): a directory holding `b.req`, `a.req` and a subfolder
`z` scans to children in the order `[z, a.req, b.req]`, and that list
is sorted by the comparator. -/
theorem C6_children_sorted_witness :
    buildTree [] (FsEntry.dir (strL "requester")
        [FsEntry.file (strL "b.req"), FsEntry.file (strL "a.req"),
         FsEntry.dir (strL "z") []]) =
      FileNode.folder (strL "requester") (strL "/requester")
        [FileNode.folder (strL "z") (strL "/requester/z") [],
         FileNode.file (strL "a.req") (strL "/requester/a.req"),
         FileNode.file (strL "b.req") (strL "/requester/b.req")] ∧
    List.Pairwise nodeLe
      [FileNode.folder (strL "z") (strL "/requester/z") [],
       FileNode.file (strL "a.req") (strL "/requester/a.req"),
       FileNode.file (strL "b.req") (strL "/requester/b.req")] :=
  ⟨rfl,
    C6_children_sorted
      (FsEntry.dir (strL "requester")
        [FsEntry.file (strL "b.req"), FsEntry.file (strL "a.req"),
         FsEntry.dir (strL "z") []]) [] _ (InTree.refl _)
      (strL "requester") (strL "/requester") _ rfl⟩

theorem filter_aux : ∀ (n : Nat) (nm : List Char) (es : List FsEntry),
    sizeOf (FsEntry.dir nm es) ≤ n →
    ∀ (path : List Char) (nd : FileNode), InTree nd (buildTree path (FsEntry.dir nm es)) →
    ∀ (fn fp : List Char), nd = FileNode.file fn fp →
    extensionOf fn = some (strL "req") := by
  intro n
  induction n with
  | zero =>
    intro nm es hsz
    exfalso
    simp at hsz
  | succ n ih =>
    intro nm es hsz path nd hin fn fp hnd
    rw [show buildTree path (FsEntry.dir nm es) =
      FileNode.folder nm (pathJoin path nm)
        (sortNodes (buildChildren (pathJoin path nm) es)) from rfl] at hin
    cases hin with
    | refl => exact absurd hnd (by simp)
    | child hc h =>
      obtain ⟨e, he, hke, rfl⟩ := mem_buildChildren.mp (mem_sortNodes.mp hc)
      have hsze := List.sizeOf_lt_of_mem he
      cases e with
      | file fn0 =>
        cases h with
        | refl =>
          injection hnd with h1 h2
          rw [← h1]
          exact of_decide_eq_true hke
      | dir nm2 es2 =>
        refine ih nm2 es2 ?_ _ nd h fn fp hnd
        simp only [FsEntry.dir.sizeOf_spec] at hsz hsze ⊢
        omega

/-- C7: (1) every file node anywhere in the tree scanned from a
directory carries the request extension `"req"` — a non-directory
entry without it never appears; (2) every entry that is a directory or
has the `"req"` extension does appear among the scanned children. -/
theorem C7_extension_filter :
    (∀ (nm : List Char) (es : List FsEntry) (path : List Char) (nd : FileNode),
        InTree nd (buildTree path (FsEntry.dir nm es)) →
        ∀ (fn fp : List Char), nd = FileNode.file fn fp →
        extensionOf fn = some (strL "req")) ∧
    (∀ (nm : List Char) (es : List FsEntry) (path : List Char) (e : FsEntry),
        e ∈ es → keepEntry e = true →
        InTree (buildTree (pathJoin path nm) e) (buildTree path (FsEntry.dir nm es))) := by
  constructor
  · intro nm es path nd hin fn fp hnd
    exact filter_aux (sizeOf (FsEntry.dir nm es)) nm es le_rfl path nd hin fn fp hnd
  · intro nm es path e he hke
    rw [show buildTree path (FsEntry.dir nm es) =
      FileNode.folder nm (pathJoin path nm)
        (sortNodes (buildChildren (pathJoin path nm) es)) from rfl]
    exact InTree.child (mem_sortNodes.mpr (mem_buildChildren.mpr ⟨e, he, hke, rfl⟩))
      (InTree.refl _)

/-- C7 (witness): in a directory holding `notes.txt` and `a.req`, the
kept entry `a.req` appears in the scanned tree. -/
theorem C7_extension_filter_witness :
    InTree (buildTree (pathJoin [] (strL "d")) (FsEntry.file (strL "a.req")))
      (buildTree [] (FsEntry.dir (strL "d")
        [FsEntry.file (strL "notes.txt"), FsEntry.file (strL "a.req")])) :=
  C7_extension_filter.2 (strL "d")
    [FsEntry.file (strL "notes.txt"), FsEntry.file (strL "a.req")] []
    (FsEntry.file (strL "a.req")) (List.Mem.tail _ (List.Mem.head _)) (by decide)

/-! ### Lemmas: the request executor -/

theorem mem_insertHeader {m : List (List Char × List Char)} {k v : List Char}
    {kv : List Char × List Char} (h : kv ∈ insertHeader m k v) :
    kv ∈ m ∨ kv = (k, v) := by
  unfold insertHeader at h
  split at h
  · obtain ⟨p, hp, he⟩ := List.mem_map.mp h
    by_cases hpk : p.1 = k
    · right
      rw [← he]
      simp [hpk]
    · left
      rw [← he]
      simp only [hpk, if_neg]
      exact hp
  · rcases List.mem_append.mp h with h1 | h2
    · exact Or.inl h1
    · right
      simpa using h2

theorem buildHeaderMap_aux (hs : List (List Char × List Char)) :
    ∀ (acc : List (List Char × List Char)),
    ∀ kv ∈ hs.foldl (fun m kv =>
        match headerNameFromStr kv.1, headerValueFromStr kv.2 with
        | .ok n, .ok v => insertHeader m n v
        | _, _ => m) acc,
    kv ∈ acc ∨ ∃ k v, (k, v) ∈ hs ∧
      headerNameFromStr k = .ok kv.1 ∧ headerValueFromStr v = .ok kv.2 := by
  induction hs with
  | nil =>
    intro acc kv h
    exact Or.inl h
  | cons p t ih =>
    intro acc kv h
    rw [List.foldl_cons] at h
    cases hn : headerNameFromStr p.1 with
    | error e =>
      rw [hn] at h
      cases hv : headerValueFromStr p.2 with
      | error e2 =>
        rw [hv] at h
        rcases ih acc kv h with h1 | ⟨k, v, hkv, h2, h3⟩
        · exact Or.inl h1
        · exact Or.inr ⟨k, v, List.mem_cons_of_mem p hkv, h2, h3⟩
      | ok v2 =>
        rw [hv] at h
        rcases ih acc kv h with h1 | ⟨k, v, hkv, h2, h3⟩
        · exact Or.inl h1
        · exact Or.inr ⟨k, v, List.mem_cons_of_mem p hkv, h2, h3⟩
    | ok n =>
      rw [hn] at h
      cases hv : headerValueFromStr p.2 with
      | error e2 =>
        rw [hv] at h
        rcases ih acc kv h with h1 | ⟨k, v, hkv, h2, h3⟩
        · exact Or.inl h1
        · exact Or.inr ⟨k, v, List.mem_cons_of_mem p hkv, h2, h3⟩
      | ok v2 =>
        rw [hv] at h
        rcases ih _ kv h with h1 | ⟨k, v, hkv, h2, h3⟩
        · rcases mem_insertHeader h1 with h4 | rfl
          · exact Or.inl h4
          · exact Or.inr ⟨p.1, p.2, by simp, by simp [hn], by simp [hv]⟩
        · exact Or.inr ⟨k, v, List.mem_cons_of_mem p hkv, h2, h3⟩

/-- C8 (amended): the executor parses the method first — an
unparseable method yields the descriptive `"Invalid method: …"` error
before any transport call; on success the envelope carries exactly the
given URL and body and the parsed method, and its headers are built by
inserting, in order, exactly those given pairs whose name and value
pass wire encoding (names ASCII-lower-cased; a later pair whose
normalised name matches an earlier one replaces its value in place, so
duplicates collapse).  Every header in the envelope comes from some
given pair. -/
theorem C8_executor (r : HttpRequest) :
    (∀ e, methodFromStr r.method = .error e →
      executeRequestEnvelope r = .error (strL "Invalid method: " ++ e)) ∧
    (∀ m, methodFromStr r.method = .ok m →
      executeRequestEnvelope r =
        .ok { method := m, url := r.url
              headers := buildHeaderMap r.headers, body := r.body }) ∧
    (∀ kv ∈ buildHeaderMap r.headers, ∃ k v, (k, v) ∈ r.headers ∧
      headerNameFromStr k = .ok kv.1 ∧ headerValueFromStr v = .ok kv.2) := by
  refine ⟨?_, ?_, ?_⟩
  · intro e he
    unfold executeRequestEnvelope
    rw [he]
  · intro m hm
    unfold executeRequestEnvelope
    rw [hm]
  · intro kv hkv
    rcases buildHeaderMap_aux r.headers [] kv hkv with h | h
    · cases h
    · exact h

/-- C8 (counterexample): the claim as stated fails — with two
well-encodable headers named `"A"`, the envelope does not contain "all
pairs, in order": `HeaderMap::insert` keeps one lower-cased entry with
the last value. -/
theorem C8_executor_counterexample :
    executeRequestEnvelope
        { method := strL "GET", url := strL "u"
          headers := [(strL "A", strL "1"), (strL "A", strL "2")], body := [] } ≠
      Except.ok { method := strL "GET", url := strL "u"
                  headers := [(strL "A", strL "1"), (strL "A", strL "2")], body := [] } := by
  decide

/-- C8 (witness): a record whose method contains a space is rejected
with the descriptive error, before any envelope is built. -/
theorem C8_executor_witness :
    executeRequestEnvelope
        { method := strL "GE T", url := strL "u", headers := [], body := [] } =
      .error (strL "Invalid method: " ++ strL "invalid HTTP method") :=
  (C8_executor { method := strL "GE T", url := strL "u", headers := [], body := [] }).1
    (strL "invalid HTTP method") (by decide)

end Requester
